import Mathlib

/-!
Verification of the spectral data-reduction pipeline implemented in the
solar-system JWST tutorial notebook (`io.ipynb`).

Numeric array values are modelled over `ℚ`; masked arrays carry an explicit
boolean mask alongside the data.  Arrays are modelled as functions out of
`Fin`-indexed types, and the wavelength-subset machinery follows the
notebook's `np.linspace`-based construction.
-/

namespace IoPipeline

/-- One edge of the wavelength subsets, following the notebook cell
`subset_edges = np.linspace(wavelength.min(), wavelength.max(), n_subsets + 1)`:
edge `i` of `np.linspace lo hi (n + 1)` is `lo + i * (hi - lo) / n`. -/
def subset_edge (lo hi : ℚ) (n i : ℕ) : ℚ := lo + i * ((hi - lo) / n)

/-- The pair of bounds of subset number `i`, following
`subset_bounds = [subset_edges[i:i+2].to(u.um).value for i in range(n_subsets)]`:
subset `i` spans from edge `i` to edge `i + 1`. -/
def subset_bound (lo hi : ℚ) (n i : ℕ) : ℚ × ℚ :=
  (subset_edge lo hi n i, subset_edge lo hi n (i + 1))

/-- The list of all band bounds, one per requested subset, in the order
produced by the notebook's list comprehension over `range(n_subsets)`. -/
def subset_bounds (lo hi : ℚ) (n : ℕ) : List (ℚ × ℚ) :=
  (List.range n).map (subset_bound lo hi n)

lemma subset_edge_lt (lo hi : ℚ) (n : ℕ) (hn : 1 ≤ n) (hlt : lo < hi)
    {i j : ℕ} (hij : i < j) :
    subset_edge lo hi n i < subset_edge lo hi n j := by
  have hn0 : 0 < n := hn
  have hnq : 0 < (n : ℚ) := by exact_mod_cast hn0
  have hw : 0 < (hi - lo) / (n : ℚ) := div_pos (by linarith) hnq
  have hij' : (i : ℚ) < (j : ℚ) := by exact_mod_cast hij
  have := mul_lt_mul_of_pos_right hij' hw
  unfold subset_edge
  linarith

lemma subset_cover (lo hi : ℚ) (n : ℕ) (hn : 1 ≤ n) (hlt : lo < hi)
    (x : ℚ) (hx1 : lo ≤ x) (hx2 : x ≤ hi) :
    ∃ i, i < n ∧ subset_edge lo hi n i ≤ x ∧ x ≤ subset_edge lo hi n (i + 1) := by
  have hn0 : 0 < n := hn
  have hnq : 0 < (n : ℚ) := by exact_mod_cast hn0
  have hw : 0 < (hi - lo) / (n : ℚ) := div_pos (by linarith) hnq
  set w : ℚ := (hi - lo) / (n : ℚ) with hwdef
  have hedge : ∀ i : ℕ, subset_edge lo hi n i = lo + i * w := fun i => rfl
  have hlast : lo + (n : ℚ) * w = hi := by
    rw [hwdef]
    field_simp
  set t : ℚ := (x - lo) / w with htdef
  have ht0 : 0 ≤ t := div_nonneg (by linarith) hw.le
  have hfl0 : 0 ≤ ⌊t⌋ := Int.floor_nonneg.mpr ht0
  have hk : ((⌊t⌋.toNat : ℕ) : ℚ) = ((⌊t⌋ : ℤ) : ℚ) := by
    exact_mod_cast congrArg (fun z : ℤ => (z : ℚ)) (Int.toNat_of_nonneg hfl0)
  by_cases hcase : ⌊t⌋ < (n : ℤ)
  · refine ⟨⌊t⌋.toNat, ?_, ?_, ?_⟩
    · omega
    · rw [hedge]
      have h1 : ((⌊t⌋.toNat : ℕ) : ℚ) ≤ t := by
        rw [hk]; exact Int.floor_le t
      have h1' := (le_div_iff₀ hw).mp h1
      linarith
    · rw [hedge]
      have h2 : t < ((⌊t⌋.toNat : ℕ) : ℚ) + 1 := by
        rw [hk]; exact Int.lt_floor_add_one t
      have h2' := (div_lt_iff₀ hw).mp h2
      push_cast
      linarith
  · push_neg at hcase
    refine ⟨n - 1, by omega, ?_, ?_⟩
    · rw [hedge]
      have h1 : (n : ℚ) ≤ t := by
        have hcq : ((n : ℤ) : ℚ) ≤ ((⌊t⌋ : ℤ) : ℚ) := by exact_mod_cast hcase
        have hfq : ((⌊t⌋ : ℤ) : ℚ) ≤ t := Int.floor_le t
        have : ((n : ℤ) : ℚ) = (n : ℚ) := by push_cast; ring
        linarith [this ▸ hcq]
      have hnw := (le_div_iff₀ hw).mp h1
      have hcast : ((n - 1 : ℕ) : ℚ) = (n : ℚ) - 1 := by
        have h1n : (1 : ℕ) ≤ n := hn
        push_cast [h1n]
        ring
      rw [hcast]
      nlinarith [hw.le]
    · have hsucc : n - 1 + 1 = n := by omega
      rw [hsucc, hedge, hlast]
      exact hx2

/-- C1: for every spectral axis with distinct min and max wavelength and every
requested band count `n ≥ 1`, the subsetter produces exactly `n` bands in
ascending wavelength order, whose `n + 1` boundaries are linearly spaced
between the axis minimum and maximum (each band has width `(hi - lo) / n`);
each consecutive pair of bands shares exactly one boundary (the upper bound of
one equals the lower bound of the next, and no other boundary coincides), and
the bands collectively cover the full wavelength range with no gaps. -/
theorem subsetter_partition (lo hi : ℚ) (n : ℕ) (hn : 1 ≤ n) (hlt : lo < hi) :
    (subset_bounds lo hi n).length = n
    ∧ (∀ i, i < n → (subset_bounds lo hi n)[i]? = some (subset_bound lo hi n i))
    ∧ subset_edge lo hi n 0 = lo
    ∧ subset_edge lo hi n n = hi
    ∧ (∀ i j, i < j → subset_edge lo hi n i < subset_edge lo hi n j)
    ∧ (∀ i, (subset_bound lo hi n i).2 - (subset_bound lo hi n i).1 = (hi - lo) / n)
    ∧ (∀ i, (subset_bound lo hi n i).2 = (subset_bound lo hi n (i + 1)).1)
    ∧ (∀ i, (subset_bound lo hi n i).1 ≠ (subset_bound lo hi n (i + 1)).1)
    ∧ (∀ i, (subset_bound lo hi n i).2 ≠ (subset_bound lo hi n (i + 1)).2)
    ∧ (∀ x, lo ≤ x → x ≤ hi →
        ∃ i, i < n ∧ (subset_bound lo hi n i).1 ≤ x ∧ x ≤ (subset_bound lo hi n i).2) := by
  have hnq : (n : ℚ) ≠ 0 := by
    have hn0 : 0 < n := hn
    exact_mod_cast hn0.ne'
  refine ⟨?_, ?_, ?_, ?_, ?_, ?_, ?_, ?_, ?_, ?_⟩
  · simp [subset_bounds]
  · intro i h
    simp [subset_bounds, List.getElem?_map, List.getElem?_range, h]
  · simp [subset_edge]
  · unfold subset_edge
    field_simp
  · intro i j hij
    exact subset_edge_lt lo hi n hn hlt hij
  · intro i
    unfold subset_bound subset_edge
    push_cast
    ring
  · intro i
    rfl
  · intro i
    exact (subset_edge_lt lo hi n hn hlt (Nat.lt_succ_self i)).ne
  · intro i
    exact (subset_edge_lt lo hi n hn hlt (Nat.lt_succ_self (i + 1))).ne
  · intro x hx1 hx2
    exact subset_cover lo hi n hn hlt x hx1 hx2

/-- A masked spectral sub-cube with two spatial axes (sizes `a`, `b`) and a
spectral axis of size `s`, modelling the `NDDataArray` band subsets handed to
`collapse`: `data` holds the numeric values and `mask` is `true` exactly at
invalid (masked) samples.  The spectral axis is the last axis, matching the
notebook where `data.meta[DISPAXIS]` indexes the spectral dimension. -/
structure SubCube (a b s : ℕ) where
  data : Fin a → Fin b → Fin s → ℚ
  mask : Fin a → Fin b → Fin s → Bool

/-- Value part of the masked reduction `np.ma.sum(masked_quantity, axis=dispersion_axis)`
(and likewise of the astropy `Masked` sum): masked entries are filled with
zero, so only unmasked samples can contribute to the sum. -/
def maskedSumData {a b s : ℕ} (c : SubCube a b s) (i : Fin a) (j : Fin b) : ℚ :=
  Finset.univ.sum (fun k => if c.mask i j k then 0 else c.data i j k)

/-- Mask part of the masked reduction: the collapsed pixel is masked (a
no-data marker) exactly when every spectral sample at that pixel is masked,
as in the numpy and astropy masked reductions. -/
def maskedSumMask {a b s : ℕ} (c : SubCube a b s) (i : Fin a) (j : Fin b) : Bool :=
  decide (∀ k, c.mask i j k = true)

/-- Number of valid (unmasked) spectral samples of a spatial pixel. -/
def validCount {a b s : ℕ} (c : SubCube a b s) (i : Fin a) (j : Fin b) : ℕ :=
  (Finset.univ.filter (fun k => c.mask i j k = false)).card

/-- Modelled from the spec: the "mean image" collapse requested by the
exercise cells is left blank in the notebook; per the spec it is the
arithmetic mean over the unmasked samples (masked samples excluded, not
zero-filled).  This also matches the numpy masked-mean semantics
(sum over unmasked samples divided by their count). -/
def maskedMeanData {a b s : ℕ} (c : SubCube a b s) (i : Fin a) (j : Fin b) : ℚ :=
  maskedSumData c i j / validCount c i j

/-- Mask part of the masked mean: the pixel carries a no-data marker exactly
when it has no valid sample. -/
def maskedMeanMask {a b s : ℕ} (c : SubCube a b s) (i : Fin a) (j : Fin b) : Bool :=
  decide (validCount c i j = 0)

/-- C2: collapsing along the spectral axis (sum or mean) uses only the
unmasked samples of each spatial pixel: the reduced value equals the
reduction taken over the set of unmasked samples alone, so masked samples
contribute nothing; and a spatial pixel whose samples are all masked comes
out carrying the no-data marker (its output mask is set), never as a plain
numeric zero.  The mean reduction of the exercise cells is spec-modelled. -/
theorem collapse_masked_excluded {a b s : ℕ} (c : SubCube a b s)
    (i : Fin a) (j : Fin b) :
    maskedSumData c i j
      = (Finset.univ.filter (fun k => c.mask i j k = false)).sum (fun k => c.data i j k)
    ∧ maskedMeanData c i j
      = (Finset.univ.filter (fun k => c.mask i j k = false)).sum (fun k => c.data i j k)
        / ((Finset.univ.filter (fun k => c.mask i j k = false)).card : ℚ)
    ∧ ((∀ k, c.mask i j k = true) →
        maskedSumMask c i j = true ∧ maskedMeanMask c i j = true) := by
  have hsum : maskedSumData c i j
      = (Finset.univ.filter (fun k => c.mask i j k = false)).sum
          (fun k => c.data i j k) := by
    rw [Finset.sum_filter]
    unfold maskedSumData
    apply Finset.sum_congr rfl
    intro k _
    cases h : c.mask i j k <;> simp
  refine ⟨hsum, ?_, ?_⟩
  · unfold maskedMeanData validCount
    rw [hsum]
  · intro hall
    constructor
    · simp [maskedSumMask, hall]
    · have hempty : (Finset.univ.filter (fun k => c.mask i j k = false)) = ∅ := by
        apply Finset.filter_eq_empty_iff.mpr
        intro k _
        simp [hall k]
      simp [maskedMeanMask, validCount, hempty]

/-- Witness for C2: a 1×1×2 sub-cube whose two spectral samples are both
masked collapses to a no-data marker at its single pixel, and on a cube with
one masked sample the sum retains only the valid one. -/
theorem collapse_masked_excluded_witness :
    (maskedSumMask
        (SubCube.mk (fun _ _ _ => (5 : ℚ)) (fun _ _ _ => true) : SubCube 1 1 2) 0 0 = true
      ∧ maskedMeanMask
        (SubCube.mk (fun _ _ _ => (5 : ℚ)) (fun _ _ _ => true) : SubCube 1 1 2) 0 0 = true)
    ∧ maskedSumData
        (SubCube.mk (fun _ _ k => if k = 0 then (3 : ℚ) else 7)
          (fun _ _ k => k ≠ 0) : SubCube 1 1 2) 0 0 = 3 := by
  constructor
  · exact (collapse_masked_excluded
      (SubCube.mk (fun _ _ _ => (5 : ℚ)) (fun _ _ _ => true) : SubCube 1 1 2) 0 0).2.2
      (fun _ => rfl)
  · have h := (collapse_masked_excluded
      (SubCube.mk (fun _ _ k => if k = 0 then (3 : ℚ) else 7)
        (fun _ _ k => k ≠ 0) : SubCube 1 1 2) 0 0).1
    rw [h]
    norm_num [Finset.sum_filter, Fin.sum_univ_succ]

/-- Exchange of the two axis descriptions of a celestial coordinate mapping,
modelling `wcs_celestial.swapaxes(1, 0)`. -/
def swapaxes {α : Type} (w : α × α) : α × α := (w.2, w.1)

/-- Transpose of a 2-D array, modelling `.T` on the collapsed image. -/
def transpose2d {a b : ℕ} {γ : Type} (f : Fin a → Fin b → γ) : Fin b → Fin a → γ :=
  fun j i => f i j

/-- A collapsed 2-D image with its mask and celestial coordinate mapping,
modelling the `NDDataArray` returned by `collapse`. -/
structure Image2D (m k : ℕ) (α : Type) where
  data : Fin m → Fin k → ℚ
  mask : Fin m → Fin k → Bool
  wcs : α × α

/-- The notebook's `collapse` function: build the masked quantity, reduce it
along the spectral axis with `np.ma.sum`, transpose the two remaining spatial
axes (`collapsed_image.T`), and attach the axis-swapped celestial coordinates
(`force_wcs = wcs_celestial.swapaxes(1, 0)`). -/
def collapse {a b s : ℕ} {α : Type} (c : SubCube a b s) (wcs_celestial : α × α) :
    Image2D b a α :=
  { data := transpose2d (maskedSumData c)
    mask := transpose2d (maskedSumMask c)
    wcs := swapaxes wcs_celestial }

/-- C9: the 2-D image handed downstream by `collapse` is the spectral
reduction of the sub-cube with its two spatial axes transposed — pixel
`(j, i)` of the image is the reduction of cube pixel `(i, j)` — and it is
paired with the axis-swapped celestial coordinate mapping, so both the pixel
axes and the coordinate mapping's axes are exchanged together. -/
theorem collapse_transposed {a b s : ℕ} {α : Type} (c : SubCube a b s)
    (w : α × α) :
    (∀ (i : Fin a) (j : Fin b),
      (collapse c w).data j i = maskedSumData c i j
      ∧ (collapse c w).mask j i = maskedSumMask c i j)
    ∧ (collapse c w).wcs = (w.2, w.1) :=
  ⟨fun _ _ => ⟨rfl, rfl⟩, rfl⟩

/-- Names of the two parameters of a `BlackBody` model component, the
`colnames` of the notebook's `fit_params` table. -/
inductive ParamName
  | temperature
  | scale
deriving DecidableEq

/-- The notebook's `fixed_parameters = [..temperature..]`: the list of parameter
names to be held fixed during the fit. -/
def fixed_parameters : List ParamName := [ParamName.temperature]

/-- One model-component parameter with its value and fixed/free flag. -/
structure FitParam where
  value : ℚ
  fixed : Bool

/-- One configured `BlackBody` component of the composite model. -/
structure BBComponent where
  temperature : FitParam
  scale : FitParam

/-- The `set_model_component` loop body: each parameter of a component is set
from the `fit_params` row, with `fixed = parameter in fixed_parameters`. -/
def set_model_component (temp scale : ℚ) : BBComponent :=
  { temperature :=
      { value := temp, fixed := decide (ParamName.temperature ∈ fixed_parameters) }
    scale :=
      { value := scale, fixed := decide (ParamName.scale ∈ fixed_parameters) } }

/-- The configuration loop over `zip(component_models, component_labels, fit_params)`:
one component per `(temperature, scale)` row of `fit_params`. -/
def configure_components (fit_params : List (ℚ × ℚ)) : List BBComponent :=
  fit_params.map (fun p => set_model_component p.1 p.2)

/-- Modelled from the spec: `modelfit_plugin.calculate_fit()` runs in the
external Model Fitting plugin, which is not part of this repository; per the
spec it performs nonlinear least-squares minimization "varying only the free
parameters".  We model the optimizer as an arbitrary update `u` of parameter
values that is applied only to parameters whose `fixed` flag is unset. -/
def calculate_fit (u : BBComponent → ParamName → ℚ) (comps : List BBComponent) :
    List BBComponent :=
  comps.map (fun comp =>
    { temperature :=
        if comp.temperature.fixed then comp.temperature
        else { value := u comp ParamName.temperature, fixed := comp.temperature.fixed }
      scale :=
        if comp.scale.fixed then comp.scale
        else { value := u comp ParamName.scale, fixed := comp.scale.fixed } })

lemma decide_temperature_mem :
    decide (ParamName.temperature ∈ fixed_parameters) = true := rfl

lemma decide_scale_mem :
    decide (ParamName.scale ∈ fixed_parameters) = false := rfl

/-- C3: with the notebook's `fixed_parameters`, every configured component has
its temperature parameter marked fixed and its scale parameter free, and any
least-squares optimization that varies only the free parameters returns
per-component temperatures equal to the initial temperatures exactly —
whatever values `u` the optimizer picks for the free scales. -/
theorem fitter_fixed_temperatures (fit_params : List (ℚ × ℚ))
    (u : BBComponent → ParamName → ℚ) :
    ((configure_components fit_params).all
        (fun comp => comp.temperature.fixed && !comp.scale.fixed)) = true
    ∧ ((calculate_fit u (configure_components fit_params)).map
        (fun comp => comp.temperature.value)) = fit_params.map Prod.fst := by
  constructor
  · rw [List.all_eq_true]
    intro comp hcomp
    rw [configure_components, List.mem_map] at hcomp
    obtain ⟨p, _, rfl⟩ := hcomp
    rfl
  · rw [configure_components, calculate_fit, List.map_map, List.map_map]
    apply List.map_congr_left
    intro p _
    simp [set_model_component, decide_temperature_mem, decide_scale_mem]

/-- astropy's `bitfield_to_boolean_mask` with its default arguments, applied
to `mask_nddata.data.astype(int)`: a sample is flagged bad exactly when some
data-quality bit is set, i.e. when the integer bitfield is nonzero. -/
def bitfield_bool_mask (bf : ℤ) : Bool := decide (bf ≠ 0)

/-- A cube subset with per-sample data and mask; the data is `Option ℚ`, with
`none` standing for NaN. -/
structure MaskedData (ι : Type) where
  data : ι → Option ℚ
  mask : ι → Bool

/-- The notebook's combined validity mask
`bitfield_to_boolean_mask(mask_nddata.data.astype(int)) | mask_nddata.mask | np.isnan(source_spectrum.data)`,
where `bitfield` is the data-quality cube of the subset and `subset_mask` is
the subset's existing mask. -/
def combined_mask {ι : Type} (src : MaskedData ι) (bitfield : ι → ℤ)
    (subset_mask : ι → Bool) (i : ι) : Bool :=
  bitfield_bool_mask (bitfield i) || subset_mask i || (src.data i).isNone

/-- The assignment `source_spectrum.mask = mask`: replace the subset's mask
with the combined mask, leaving the data array untouched. -/
def set_combined_mask {ι : Type} (src : MaskedData ι) (bitfield : ι → ℤ)
    (subset_mask : ι → Bool) : MaskedData ι :=
  { data := src.data, mask := combined_mask src bitfield subset_mask }

/-- C4: the combined validity mask is the pointwise logical OR of the three
defect sources — the bitfield-derived boolean mask, the subset's existing
mask, and the NaN test of the data — and combining masks changes only the
mask: every element of the data array is unchanged. -/
theorem mask_combination {ι : Type} (src : MaskedData ι) (bitfield : ι → ℤ)
    (subset_mask : ι → Bool) (i : ι) :
    (set_combined_mask src bitfield subset_mask).data i = src.data i
    ∧ ((set_combined_mask src bitfield subset_mask).mask i = true ↔
        (bitfield i ≠ 0 ∨ subset_mask i = true ∨ src.data i = none)) := by
  refine ⟨rfl, ?_⟩
  simp only [set_combined_mask, combined_mask, bitfield_bool_mask,
    Option.isNone_iff_eq_none, Bool.or_eq_true, decide_eq_true_eq]
  tauto

/-- glue's range selection, as applied by
`spectrum_viewer.apply_roi(XRangeROI(*limits))`: the resulting range subset
state marks a spectral sample as belonging to the subset exactly when
`lo ≤ x ≤ hi`, inclusive at both ends. -/
def xrange_selects (lo hi x : ℚ) : Bool := decide (lo ≤ x) && decide (x ≤ hi)

/-- The selection rule asserted by the claim, stated from the spec for
comparison with the code's `xrange_selects`: half-open `[lo, hi)` for every
band except the last, which also includes its upper bound. -/
def claimed_selects (lo hi x : ℚ) (isLast : Bool) : Bool :=
  decide (lo ≤ x) && (if isLast then decide (x ≤ hi) else decide (x < hi))

/-- C5 counterexample: on the spectral axis with samples 0, 1, 2 split into
two bands, the first (non-last) band spans 0 to 1 and the second spans 1 to
2; the sample at wavelength 1 — the first band's upper boundary — is selected
by both bands under the code's inclusive range selection, while the claim's
half-open rule would exclude it from the first band and would make the two
bands disjoint. -/
theorem band_halfopen_counterexample :
    (subset_bounds 0 2 2)[0]? = some (0, 1)
    ∧ (subset_bounds 0 2 2)[1]? = some (1, 2)
    ∧ xrange_selects 0 1 1 = true
    ∧ xrange_selects 1 2 1 = true
    ∧ claimed_selects 0 1 1 false = false := by
  refine ⟨?_, ?_, ?_, ?_, ?_⟩
  · simp [subset_bounds, List.getElem?_map, List.getElem?_range,
      subset_bound, subset_edge]
  · simp [subset_bounds, List.getElem?_map, List.getElem?_range,
      subset_bound, subset_edge]
  · norm_num [xrange_selects]
  · norm_num [xrange_selects]
  · norm_num [claimed_selects]

lemma subset_edge_le (lo hi : ℚ) (n : ℕ) (hn : 1 ≤ n) (hlt : lo < hi)
    {i j : ℕ} (hij : i ≤ j) :
    subset_edge lo hi n i ≤ subset_edge lo hi n j := by
  rcases Nat.lt_or_ge i j with h | h
  · exact (subset_edge_lt lo hi n hn hlt h).le
  · have : i = j := le_antisymm hij h
    rw [this]

/-- C5 amended: extracting a band's sub-cube selects exactly the spectral
samples whose wavelength lies in the closed interval from the band's lower to
its upper boundary, for every band alike; a sample strictly inside one band
is selected by no other band, while a sample lying exactly on a shared
interior boundary is selected by both adjacent bands. -/
theorem band_selection_closed (lo hi : ℚ) (n : ℕ) (hn : 1 ≤ n) (hlt : lo < hi) :
    (∀ i x, xrange_selects (subset_bound lo hi n i).1 (subset_bound lo hi n i).2 x = true
        ↔ (subset_edge lo hi n i ≤ x ∧ x ≤ subset_edge lo hi n (i + 1)))
    ∧ (∀ i j x, subset_edge lo hi n i < x → x < subset_edge lo hi n (i + 1) → i ≠ j →
        xrange_selects (subset_bound lo hi n j).1 (subset_bound lo hi n j).2 x = false)
    ∧ (∀ i, i + 1 < n →
        xrange_selects (subset_bound lo hi n i).1 (subset_bound lo hi n i).2
          (subset_edge lo hi n (i + 1)) = true
        ∧ xrange_selects (subset_bound lo hi n (i + 1)).1 (subset_bound lo hi n (i + 1)).2
          (subset_edge lo hi n (i + 1)) = true) := by
  have hchar : ∀ i x,
      xrange_selects (subset_bound lo hi n i).1 (subset_bound lo hi n i).2 x = true
        ↔ (subset_edge lo hi n i ≤ x ∧ x ≤ subset_edge lo hi n (i + 1)) := by
    intro i x
    simp [xrange_selects, subset_bound]
  refine ⟨hchar, ?_, ?_⟩
  · intro i j x hx1 hx2 hij
    rcases Nat.lt_or_ge j i with h | h
    · have hle : subset_edge lo hi n (j + 1) ≤ subset_edge lo hi n i :=
        subset_edge_le lo hi n hn hlt h
      have : ¬ (x ≤ subset_edge lo hi n (j + 1)) := not_le.mpr (lt_of_le_of_lt hle hx1)
      simp [xrange_selects, subset_bound, this]
    · have hij' : i < j := lt_of_le_of_ne h (Ne.symm (by omega))
      have hle : subset_edge lo hi n (i + 1) ≤ subset_edge lo hi n j :=
        subset_edge_le lo hi n hn hlt hij'
      have : ¬ (subset_edge lo hi n j ≤ x) := not_le.mpr (lt_of_lt_of_le hx2 hle)
      simp [xrange_selects, subset_bound, this]
  · intro i _
    constructor
    · exact (hchar i _).mpr
        ⟨(subset_edge_lt lo hi n hn hlt (Nat.lt_succ_self i)).le, le_refl _⟩
    · exact (hchar (i + 1) _).mpr
        ⟨le_refl _, (subset_edge_lt lo hi n hn hlt (Nat.lt_succ_self (i + 1))).le⟩

/-- Witness for the amended C5 at `lo = 0`, `hi = 2`, `n = 2`: the shared
boundary sample is selected by both adjacent bands. -/
theorem band_selection_closed_witness :
    xrange_selects (subset_bound 0 2 2 0).1 (subset_bound 0 2 2 0).2
      (subset_edge 0 2 2 1) = true
    ∧ xrange_selects (subset_bound 0 2 2 1).1 (subset_bound 0 2 2 1).2
      (subset_edge 0 2 2 1) = true :=
  (band_selection_closed 0 2 2 (by norm_num) (by norm_num)).2.2 0 (by norm_num)

/-- `np.ma.average(coord, weights=wl_slice)` over one wavelength slice, as in
the center-of-light loop: the weighted mean of the coordinate array over the
unmasked pixels of the slice, the flux values acting as weights. -/
def ma_average {ι : Type} [Fintype ι] (coord weights : ι → ℚ) (mask : ι → Bool) : ℚ :=
  (Finset.univ.sum fun p => if mask p then 0 else weights p * coord p)
    / (Finset.univ.sum fun p => if mask p then 0 else weights p)

/-- C6: for a wavelength slice with nonzero total weight over its valid
pixels, the flux-weighted centroid is unchanged when all flux weights are
multiplied by the same positive constant, in both pixel coordinates. -/
theorem centroid_scale_invariant {ι : Type} [Fintype ι]
    (xx yy weights : ι → ℚ) (mask : ι → Bool) (c : ℚ) (hc : 0 < c)
    (hw : (Finset.univ.sum fun p => if mask p then 0 else weights p) ≠ 0) :
    ma_average xx (fun p => c * weights p) mask = ma_average xx weights mask
    ∧ ma_average yy (fun p => c * weights p) mask = ma_average yy weights mask := by
  have key : ∀ coord : ι → ℚ,
      ma_average coord (fun p => c * weights p) mask = ma_average coord weights mask := by
    intro coord
    unfold ma_average
    have hnum : (Finset.univ.sum fun p => if mask p then 0 else c * weights p * coord p)
        = c * Finset.univ.sum fun p => if mask p then 0 else weights p * coord p := by
      rw [Finset.mul_sum]
      apply Finset.sum_congr rfl
      intro p _
      cases h : mask p <;> simp <;> ring
    have hden : (Finset.univ.sum fun p => if mask p then 0 else c * weights p)
        = c * Finset.univ.sum fun p => if mask p then 0 else weights p := by
      rw [Finset.mul_sum]
      apply Finset.sum_congr rfl
      intro p _
      cases h : mask p <;> simp
    rw [hnum, hden, mul_div_mul_left _ _ hc.ne']
  exact ⟨key xx, key yy⟩

/-- Witness for C6 on a two-pixel slice with weights 1 and 2, no masking,
scale factor 3. -/
theorem centroid_scale_invariant_witness :
    ma_average (fun p : Fin 2 => (p : ℚ)) (fun p => 3 * (p + 1 : ℚ)) (fun _ => false)
      = ma_average (fun p : Fin 2 => (p : ℚ)) (fun p => (p + 1 : ℚ)) (fun _ => false)
    ∧ ma_average (fun _ : Fin 2 => (7 : ℚ)) (fun p => 3 * (p + 1 : ℚ)) (fun _ => false)
      = ma_average (fun _ : Fin 2 => (7 : ℚ)) (fun p => (p + 1 : ℚ)) (fun _ => false) :=
  centroid_scale_invariant (fun p : Fin 2 => (p : ℚ)) (fun _ => (7 : ℚ))
    (fun p => (p + 1 : ℚ)) (fun _ => false) 3 (by norm_num)
    (by norm_num [Fin.sum_univ_succ])

/-- The denominator of the closed-form degree-one least-squares solution for
a design matrix `np.vander(x, 2)` with rows `(x_i, 1)`; it is nonzero exactly
when the design has full rank. -/
def lstsq_denom {m : ℕ} (x : Fin m → ℚ) : ℚ :=
  (m : ℚ) * (Finset.univ.sum fun i => x i * x i) - (Finset.univ.sum x) ^ 2

/-- `np.linalg.lstsq(np.vander(x, 2), y)` for a full-rank design: the unique
least-squares solution `(slope, intercept)` obtained by solving the normal
equations in closed form (certified below by `lstsq_deg1_normal`). -/
def lstsq_deg1 {m : ℕ} (x y : Fin m → ℚ) : ℚ × ℚ :=
  (((m : ℚ) * (Finset.univ.sum fun i => x i * y i)
      - (Finset.univ.sum x) * (Finset.univ.sum y)) / lstsq_denom x,
    ((Finset.univ.sum fun i => x i * x i) * (Finset.univ.sum y)
      - (Finset.univ.sum x) * (Finset.univ.sum fun i => x i * y i)) / lstsq_denom x)

lemma lstsq_alg (n Sx Sxx Sy Sxy : ℚ) (hd : n * Sxx - Sx ^ 2 ≠ 0) :
    ((n * Sxy - Sx * Sy) / (n * Sxx - Sx ^ 2)) * Sxx
      + ((Sxx * Sy - Sx * Sxy) / (n * Sxx - Sx ^ 2)) * Sx = Sxy
    ∧ ((n * Sxy - Sx * Sy) / (n * Sxx - Sx ^ 2)) * Sx
      + n * ((Sxx * Sy - Sx * Sxy) / (n * Sxx - Sx ^ 2)) = Sy := by
  constructor
  · field_simp
    ring
  · field_simp
    ring

/-- Certification that `lstsq_deg1` is the least-squares solution: it
satisfies both normal equations of the design `np.vander(x, 2)`. -/
lemma lstsq_deg1_normal {m : ℕ} (x y : Fin m → ℚ) (hd : lstsq_denom x ≠ 0) :
    (Finset.univ.sum fun i => x i * ((lstsq_deg1 x y).1 * x i + (lstsq_deg1 x y).2))
      = (Finset.univ.sum fun i => x i * y i)
    ∧ (Finset.univ.sum fun i => ((lstsq_deg1 x y).1 * x i + (lstsq_deg1 x y).2))
      = Finset.univ.sum y := by
  have hd' : (m : ℚ) * (Finset.univ.sum fun i => x i * x i)
      - (Finset.univ.sum x) ^ 2 ≠ 0 := hd
  have halg := lstsq_alg (m : ℚ) (Finset.univ.sum x)
    (Finset.univ.sum fun i => x i * x i) (Finset.univ.sum y)
    (Finset.univ.sum fun i => x i * y i) hd'
  constructor
  · have expand : (Finset.univ.sum fun i =>
        x i * ((lstsq_deg1 x y).1 * x i + (lstsq_deg1 x y).2))
        = (lstsq_deg1 x y).1 * (Finset.univ.sum fun i => x i * x i)
          + (lstsq_deg1 x y).2 * Finset.univ.sum x := by
      rw [Finset.mul_sum, Finset.mul_sum, ← Finset.sum_add_distrib]
      apply Finset.sum_congr rfl
      intro i _
      ring
    rw [expand]
    exact halg.1
  · have expand : (Finset.univ.sum fun i =>
        ((lstsq_deg1 x y).1 * x i + (lstsq_deg1 x y).2))
        = (lstsq_deg1 x y).1 * Finset.univ.sum x + (m : ℚ) * (lstsq_deg1 x y).2 := by
      rw [Finset.sum_add_distrib, Finset.sum_const, ← Finset.mul_sum, nsmul_eq_mul,
        Finset.card_univ, Fintype.card_fin]
    rw [expand]
    exact halg.2

lemma lstsq_recover_alg (n Sx Sxx a b : ℚ) (hd : n * Sxx - Sx ^ 2 ≠ 0) :
    (n * (a * Sx + b * Sxx) - Sx * (n * a + b * Sx)) / (n * Sxx - Sx ^ 2) = b
    ∧ (Sxx * (n * a + b * Sx) - Sx * (a * Sx + b * Sxx)) / (n * Sxx - Sx ^ 2) = a := by
  constructor
  · field_simp
    ring
  · field_simp
    ring

/-- C7: for a spatial pixel whose spectrum over the chosen sub-band is exactly
`a + b * (λ - λ0)` with all samples valid and no noise, the per-pixel
least-squares first-degree fit of flux against wavelength offset from the
band start returns the coefficients `(slope, intercept) = (b, a)` exactly,
provided the design is full rank (at least two distinct wavelengths). -/
theorem slope_fit_recovers {m : ℕ} (wl : Fin (m + 1) → ℚ) (a b : ℚ)
    (flux : Fin (m + 1) → ℚ)
    (hd : lstsq_denom (fun i => wl i - wl 0) ≠ 0)
    (hflux : ∀ i, flux i = a + b * (wl i - wl 0)) :
    lstsq_deg1 (fun i => wl i - wl 0) flux = (b, a) := by
  set x : Fin (m + 1) → ℚ := fun i => wl i - wl 0 with hx
  have hSy : Finset.univ.sum flux
      = ((m + 1 : ℕ) : ℚ) * a + b * Finset.univ.sum x := by
    calc Finset.univ.sum flux = Finset.univ.sum (fun i => a + b * x i) := by
          apply Finset.sum_congr rfl
          intro i _
          rw [hflux i]
      _ = ((m + 1 : ℕ) : ℚ) * a + b * Finset.univ.sum x := by
          rw [Finset.sum_add_distrib, Finset.sum_const, ← Finset.mul_sum,
            nsmul_eq_mul, Finset.card_univ, Fintype.card_fin]
  have hSxy : (Finset.univ.sum fun i => x i * flux i)
      = a * Finset.univ.sum x + b * (Finset.univ.sum fun i => x i * x i) := by
    calc (Finset.univ.sum fun i => x i * flux i)
        = Finset.univ.sum (fun i => a * x i + b * (x i * x i)) := by
          apply Finset.sum_congr rfl
          intro i _
          rw [hflux i]
          ring
      _ = a * Finset.univ.sum x + b * (Finset.univ.sum fun i => x i * x i) := by
          rw [Finset.sum_add_distrib, ← Finset.mul_sum, ← Finset.mul_sum]
  have hd' : ((m + 1 : ℕ) : ℚ) * (Finset.univ.sum fun i => x i * x i)
      - (Finset.univ.sum x) ^ 2 ≠ 0 := hd
  have halg := lstsq_recover_alg ((m + 1 : ℕ) : ℚ) (Finset.univ.sum x)
    (Finset.univ.sum fun i => x i * x i) a b hd'
  rw [Prod.ext_iff]
  constructor
  · show ((((m + 1 : ℕ) : ℚ)) * (Finset.univ.sum fun i => x i * flux i)
      - (Finset.univ.sum x) * (Finset.univ.sum flux)) / lstsq_denom x = b
    rw [hSxy, hSy]
    exact halg.1
  · show ((Finset.univ.sum fun i => x i * x i) * (Finset.univ.sum flux)
      - (Finset.univ.sum x) * (Finset.univ.sum fun i => x i * flux i)) / lstsq_denom x = a
    rw [hSy, hSxy]
    exact halg.2

/-- Witness for C7: two wavelength samples 0 and 1, flux exactly
`2 + 3 * (λ - λ0)`; the fit returns slope 3 and intercept 2. -/
theorem slope_fit_recovers_witness :
    lstsq_denom (fun i : Fin 2 => (i : ℚ) - ((0 : Fin 2) : ℚ)) ≠ 0
    ∧ lstsq_deg1 (fun i : Fin 2 => (i : ℚ) - ((0 : Fin 2) : ℚ))
        (fun i : Fin 2 => 2 + 3 * ((i : ℚ) - ((0 : Fin 2) : ℚ))) = (3, 2) := by
  have hd : lstsq_denom (fun i : Fin 2 => (i : ℚ) - ((0 : Fin 2) : ℚ)) ≠ 0 := by
    norm_num [lstsq_denom, Fin.sum_univ_succ]
  exact ⟨hd, slope_fit_recovers (fun i : Fin 2 => (i : ℚ)) 2 3
    (fun i : Fin 2 => 2 + 3 * ((i : ℚ) - ((0 : Fin 2) : ℚ))) hd (fun _ => rfl)⟩

/-- The `betas` array after the per-pixel fitting loop: initialised to the
invalid marker (`np.nan * np.zeros(...)`, modelled as `none`) and assigned a
fit result only for pixels passing `if not np.all(pxl_spectrum.mask)`. -/
def betas_after {npix ns : ℕ} (smask : Fin npix → Fin ns → Bool)
    (fitres : Fin npix → ℚ × ℚ) (i : Fin npix) : Option (ℚ × ℚ) :=
  if ∀ k, smask i k = true then none else some (fitres i)

/-- The `hotspot_distances.mask` array after the loop: initialised all `True`
and cleared only for pixels passing the same guard. -/
def hotspot_mask_after {npix ns : ℕ} (smask : Fin npix → Fin ns → Bool)
    (i : Fin npix) : Bool :=
  decide (∀ k, smask i k = true)

/-- C8: a spatial pixel whose samples in the chosen sub-band are all masked
is excluded from the per-pixel slope result — its coefficient entry stays at
the invalid marker and its distance entry stays masked — and a pixel is
fitted (coefficients assigned, distance unmasked) if and only if it has at
least one valid sample; this holds for every fit outcome `fitres`. -/
theorem slope_skips_all_masked {npix ns : ℕ} (smask : Fin npix → Fin ns → Bool)
    (fitres : Fin npix → ℚ × ℚ) (i : Fin npix) :
    ((∀ k, smask i k = true) →
        betas_after smask fitres i = none ∧ hotspot_mask_after smask i = true)
    ∧ ((betas_after smask fitres i).isSome = true ↔ ∃ k, smask i k = false)
    ∧ (hotspot_mask_after smask i = false ↔ ∃ k, smask i k = false) := by
  by_cases hall : ∀ k, smask i k = true
  · refine ⟨fun _ => ⟨?_, ?_⟩, ?_, ?_⟩
    · simp [betas_after, hall]
    · simp [hotspot_mask_after, hall]
    · simp [betas_after, hall]
    · simp [hotspot_mask_after, hall]
  · have hex : ∃ k, smask i k = false := by
      push_neg at hall
      obtain ⟨k, hk⟩ := hall
      exact ⟨k, by simpa using hk⟩
    refine ⟨fun hcon => absurd hcon hall, ?_, ?_⟩
    · constructor
      · intro _
        exact hex
      · intro _
        simp [betas_after, hall]
    · constructor
      · intro _
        exact hex
      · intro _
        simp [hotspot_mask_after, hall]

/-- Witness for C8 on two pixels with a two-sample band: pixel 0 entirely
masked keeps the invalid marker and stays masked; pixel 1 with valid samples
is fitted. -/
theorem slope_skips_all_masked_witness :
    betas_after (fun i _ : Fin 2 => decide (i = (0 : Fin 2)))
      (fun _ => ((1 : ℚ), (2 : ℚ))) 0 = none
    ∧ hotspot_mask_after (fun i _ : Fin 2 => decide (i = (0 : Fin 2))) 0 = true
    ∧ (betas_after (fun i _ : Fin 2 => decide (i = (0 : Fin 2)))
        (fun _ => ((1 : ℚ), (2 : ℚ))) 1).isSome = true := by
  have H0 := slope_skips_all_masked (fun i _ : Fin 2 => decide (i = (0 : Fin 2)))
    (fun _ => ((1 : ℚ), (2 : ℚ))) 0
  have H1 := slope_skips_all_masked (fun i _ : Fin 2 => decide (i = (0 : Fin 2)))
    (fun _ => ((1 : ℚ), (2 : ℚ))) 1
  obtain ⟨hb, hm⟩ := H0.1 (fun _ => rfl)
  exact ⟨hb, hm, H1.2.1.mpr ⟨0, rfl⟩⟩

/-- Extended value semantics for the float arithmetic of the masked-spectrum
cell: a finite rational, an infinity of either sign, or NaN. -/
inductive FloatVal
  | nan
  | posInf
  | negInf
  | fin (q : ℚ)
deriving DecidableEq

/-- Float division of finite nonneg-or-neg values as performed by
`count.max() / count`: division by zero yields an infinity of the numerator's
sign, or NaN for zero over zero, rather than raising. -/
def fdiv (a b : ℚ) : FloatVal :=
  if b = 0 then
    if a = 0 then FloatVal.nan
    else if 0 < a then FloatVal.posInf
    else FloatVal.negInf
  else FloatVal.fin (a / b)

/-- Float multiplication of a finite value by an extended value, as in
`nansum * (count.max() / count)`: zero times an infinity is NaN, and NaN
propagates. -/
def fmul (a : ℚ) : FloatVal → FloatVal
  | FloatVal.nan => FloatVal.nan
  | FloatVal.posInf =>
      if a = 0 then FloatVal.nan
      else if 0 < a then FloatVal.posInf
      else FloatVal.negInf
  | FloatVal.negInf =>
      if a = 0 then FloatVal.nan
      else if 0 < a then FloatVal.negInf
      else FloatVal.posInf
  | FloatVal.fin b => FloatVal.fin (a * b)

/-- The per-slice valid-spaxel count
`count = np.sum(~np.isnan(masked_spec), axis=(0, 1))`: after the in-place
fill `masked_spec[source_spectrum.mask] = np.nan`, a sample is NaN exactly
when it is masked. -/
def slice_count {a b s : ℕ} (c : SubCube a b s) (k : Fin s) : ℕ :=
  (Finset.univ.filter (fun p : Fin a × Fin b => c.mask p.1 p.2 k = false)).card

/-- The per-slice NaN-ignoring sum over spaxels,
`np.nansum(source_spectrum.data, axis=(0, 1))`: NaN (masked) samples are
treated as zero. -/
def slice_nansum {a b s : ℕ} (c : SubCube a b s) (k : Fin s) : ℚ :=
  Finset.univ.sum (fun p : Fin a × Fin b =>
    if c.mask p.1 p.2 k then 0 else c.data p.1 p.2 k)

/-- The maximum valid-spaxel count over all slices, `count.max()`. -/
def count_max {a b s : ℕ} (c : SubCube a b s) : ℕ :=
  Finset.univ.sup (slice_count c)

/-- The masked spectrum of the notebook cell,
`masked_spectrum_flux = np.nansum(source_spectrum.data, axis=(0, 1)) * unit * (count.max() / count)`,
one extended value per wavelength slice. -/
def masked_spectrum_flux {a b s : ℕ} (c : SubCube a b s) (k : Fin s) : FloatVal :=
  fmul (slice_nansum c k) (fdiv ((count_max c : ℚ)) ((slice_count c k : ℚ)))

/-- C10: at every wavelength slice with at least one valid spaxel the
reported flux is the finite value `nansum * (count_max / count)`, which
equals the mean over the valid spaxels scaled by `count_max`; at a slice
whose valid-spaxel count is zero the result is NaN (zero times the infinite
or indeterminate ratio), not zero. -/
theorem masked_spectrum_flux_spec {a b s : ℕ} (c : SubCube a b s) (k : Fin s) :
    (slice_count c k ≠ 0 →
      masked_spectrum_flux c k
        = FloatVal.fin (slice_nansum c k * ((count_max c : ℚ) / (slice_count c k : ℚ)))
      ∧ masked_spectrum_flux c k
        = FloatVal.fin ((slice_nansum c k / (slice_count c k : ℚ)) * (count_max c : ℚ)))
    ∧ (slice_count c k = 0 → masked_spectrum_flux c k = FloatVal.nan) := by
  constructor
  · intro hk
    have hkq : ((slice_count c k : ℕ) : ℚ) ≠ 0 := by exact_mod_cast hk
    have hfin : masked_spectrum_flux c k
        = FloatVal.fin (slice_nansum c k * ((count_max c : ℚ) / (slice_count c k : ℚ))) := by
      unfold masked_spectrum_flux fdiv fmul
      rw [if_neg hkq]
    refine ⟨hfin, ?_⟩
    rw [hfin]
    congr 1
    field_simp
  · intro hk
    have hsum0 : slice_nansum c k = 0 := by
      have hall : ∀ p : Fin a × Fin b, c.mask p.1 p.2 k = true := by
        intro p
        have hempty : (Finset.univ.filter
            (fun p : Fin a × Fin b => c.mask p.1 p.2 k = false)) = ∅ :=
          Finset.card_eq_zero.mp hk
        by_contra hcon
        have hmem : p ∈ Finset.univ.filter
            (fun p : Fin a × Fin b => c.mask p.1 p.2 k = false) := by
          simp [Finset.mem_filter]
          exact Bool.not_eq_true _ |>.mp hcon
        rw [hempty] at hmem
        exact absurd hmem (Finset.not_mem_empty p)
      unfold slice_nansum
      apply Finset.sum_eq_zero
      intro p _
      rw [hall p, if_pos rfl]
    have hkq : ((slice_count c k : ℕ) : ℚ) = 0 := by exact_mod_cast hk
    unfold masked_spectrum_flux
    rw [hsum0, hkq]
    by_cases hcm : ((count_max c : ℕ) : ℚ) = 0
    · rw [hcm]
      rfl
    · unfold fdiv
      rw [if_pos rfl, if_neg hcm]
      have hcmpos : 0 < ((count_max c : ℕ) : ℚ) := by
        have : 0 < count_max c := by
          rcases Nat.eq_zero_or_pos (count_max c) with h | h
          · exact absurd (by exact_mod_cast h) hcm
          · exact h
        exact_mod_cast this
      rw [if_pos hcmpos]
      unfold fmul
      rw [if_pos rfl]

/-- Witness for C10: a 1×1 spatial grid with two slices, the first valid with
value 4 and the second fully masked; the first slice reports the finite flux
4 and the second reports NaN. -/
theorem masked_spectrum_flux_spec_witness :
    masked_spectrum_flux
      (SubCube.mk (fun _ _ _ => (4 : ℚ)) (fun _ _ k => decide (k = (1 : Fin 2)))
        : SubCube 1 1 2) 0
      = FloatVal.fin ((slice_nansum
          (SubCube.mk (fun _ _ _ => (4 : ℚ)) (fun _ _ k => decide (k = (1 : Fin 2)))
            : SubCube 1 1 2) 0
          / (slice_count
            (SubCube.mk (fun _ _ _ => (4 : ℚ)) (fun _ _ k => decide (k = (1 : Fin 2)))
              : SubCube 1 1 2) 0 : ℚ))
          * (count_max
            (SubCube.mk (fun _ _ _ => (4 : ℚ)) (fun _ _ k => decide (k = (1 : Fin 2)))
              : SubCube 1 1 2) : ℚ))
    ∧ masked_spectrum_flux
      (SubCube.mk (fun _ _ _ => (4 : ℚ)) (fun _ _ k => decide (k = (1 : Fin 2)))
        : SubCube 1 1 2) 1
      = FloatVal.nan := by
  constructor
  · exact ((masked_spectrum_flux_spec
      (SubCube.mk (fun _ _ _ => (4 : ℚ)) (fun _ _ k => decide (k = (1 : Fin 2)))
        : SubCube 1 1 2) 0).1 (by decide)).2
  · exact (masked_spectrum_flux_spec
      (SubCube.mk (fun _ _ _ => (4 : ℚ)) (fun _ _ k => decide (k = (1 : Fin 2)))
        : SubCube 1 1 2) 1).2 (by decide)

/-- Witness for C1 at `lo = 0`, `hi = 2`, `n = 2`. -/
theorem subsetter_partition_witness :
    (subset_bounds 0 2 2).length = 2
    ∧ subset_edge 0 2 2 0 = 0
    ∧ subset_edge 0 2 2 2 = 2
    ∧ (subset_bound 0 2 2 0).2 = (subset_bound 0 2 2 1).1 := by
  have H := subsetter_partition 0 2 2 (by norm_num) (by norm_num)
  exact ⟨H.1, H.2.2.1, H.2.2.2.1, H.2.2.2.2.2.2.1 0⟩

end IoPipeline
